import Mathlib

/-!
Shallow embedding of the page-path tree logic of the `rem` repository
(`src/nav-types.ts`, `AddPageButton.tsx`, `DeletePageButton.tsx`,
`RenamePageButton.tsx`), together with proofs about its navigation and
mutation operations.

Paths are JavaScript strings; we model them as Lean `String`s and model the
handful of JavaScript string builtins the code uses (`split`, `replace`,
`trim`, `slice(1)`, `startsWith`, the leading/trailing-slash regex strip) as
executable functions over `List Char`.
-/

/-- JavaScript `s.split("/")` on the character list of `s`: splitting an
empty string gives one empty segment, and consecutive separators produce
empty segments. -/
def splitChars : List Char → List (List Char)
  | [] => [[]]
  | c :: cs =>
    if c = '/' then [] :: splitChars cs
    else
      match splitChars cs with
      | [] => [[c]]
      | p :: ps => (c :: p) :: ps

/-- JavaScript `parts.join("/")`: intercalate a slash between segments. -/
def joinChars : List (List Char) → List Char
  | [] => []
  | [l] => l
  | l :: ls => l ++ '/' :: joinChars ls

/-- Drop the longest suffix of `l` all of whose characters satisfy `p`. -/
def dropTrailing (p : Char → Bool) (l : List Char) : List Char :=
  (l.reverse.dropWhile p).reverse

/-- JavaScript `s.replace(/^\/+|\/+$/g, "")`: strip all leading and trailing
slashes. -/
def stripSlashes (l : List Char) : List Char :=
  dropTrailing (fun c => c = '/') (l.dropWhile (fun c => c = '/'))

/-- JavaScript `s.trim()`: strip leading and trailing whitespace. -/
def jsTrim (s : String) : String :=
  String.mk (dropTrailing Char.isWhitespace (s.data.dropWhile Char.isWhitespace))

/-- JavaScript `s.slice(n)` for a nonnegative `n`: drop the first `n`
characters. -/
def jsSlice (s : String) (n : Nat) : String :=
  String.mk (s.data.drop n)

/-- JavaScript `s.startsWith(pre)`. -/
def jsStartsWith (s pre : String) : Bool :=
  pre.data.isPrefixOf s.data

/-- JavaScript `s.replace(pat, repl)` with a plain-string pattern containing
no special replacement sequences: replace the first occurrence of `pat`
(if any) by `repl`. An empty pattern matches at the start. -/
def replaceFirst (pat repl : List Char) : List Char → List Char
  | [] => if pat.isPrefixOf ([] : List Char) then repl else []
  | c :: cs =>
    if pat.isPrefixOf (c :: cs) then repl ++ (c :: cs).drop pat.length
    else c :: replaceFirst pat repl cs

/-- JavaScript `s.replace(pat, repl)` lifted to `String`. -/
def jsReplaceFirst (s pat repl : String) : String :=
  String.mk (replaceFirst pat.data repl.data s.data)

/-- A tldraw page record: a stable id and a name, the name being the full
slash-delimited path of the page (`nav-types.ts`, type `TLPage` as used by
this repository). -/
structure TLPage where
  id : Nat
  name : String
deriving DecidableEq, Repr

/-- The derived fields computed by `getMyPageSingle`. -/
structure MyMeta where
  name : String
  parentPath : String
deriving DecidableEq, Repr

/-- `MyPage` from `nav-types.ts`: a `TLPage` together with the derived
`my.name` and `my.parentPath` fields. -/
structure MyPage where
  id : Nat
  name : String
  my : MyMeta
deriving DecidableEq, Repr

/-- `getMyPageSingle` from `nav-types.ts`: strip leading/trailing slashes
from the page name, split on `/`; the last part (or the empty string if the
last part is empty) is `my.name`, everything before it joined by `/` is
`my.parentPath`. -/
def getMyPageSingle (page : TLPage) : MyPage :=
  let parts := splitChars (stripSlashes page.name.data)
  let name := (parts.getLast?).getD []
  let parentPath := joinChars parts.dropLast
  { id := page.id, name := page.name,
    my := { name := String.mk name, parentPath := String.mk parentPath } }

example : (getMyPageSingle ⟨0, "/a/b/c"⟩).my = ⟨"c", "a/b"⟩ := by decide
example : (getMyPageSingle ⟨0, "/"⟩).my = ⟨"", ""⟩ := by decide
example : (getMyPageSingle ⟨0, "/a//b"⟩).my = ⟨"b", "a/"⟩ := by decide

/-- The model of JavaScript `localeCompare` used below, as a sort key.
Modelled from the documented default-locale (root collation) behaviour of
`String.prototype.localeCompare` on ASCII strings: strings compare primarily
by their case-folded (lowercased) characters, and only when those agree does
case break the tie, with lowercase ordered before uppercase. The key is the
lowercased character codes (shifted by one), a `0` separator, then the case
flags. -/
def localeKey (s : String) : List Nat :=
  s.data.map (fun c => c.toLower.toNat + 1)
    ++ 0 :: s.data.map (fun c => if c.isUpper then 2 else 1)

/-- Lexicographic order on sort keys. -/
def keyLe : List Nat → List Nat → Bool
  | [], _ => true
  | _ :: _, [] => false
  | a :: as, b :: bs => decide (a < b) || (decide (a = b) && keyLe as bs)

/-- `a.localeCompare(b) <= 0` in the model: compare by `localeKey`. -/
def localeLe (s t : String) : Bool :=
  keyLe (localeKey s) (localeKey t)

/-- `getMyPages` from `nav-types.ts`: map `getMyPageSingle` over the pages
and sort by `my.name` using `localeCompare` (a stable sort, modelled by
`List.mergeSort`). -/
def getMyPages (pages : List TLPage) : List MyPage :=
  (pages.map getMyPageSingle).mergeSort (fun a b => localeLe a.my.name b.my.name)

/-- `findAllChildPages` from `nav-types.ts`: all pages other than the parent
itself whose path without its leading slash starts with the parent path
followed by a slash (for the root, every non-root page). -/
def findAllChildPages (parentPage : MyPage) (allPages : List MyPage) : List MyPage :=
  let parentPath := if parentPage.name = "/" then "" else jsSlice parentPage.name 1
  allPages.filter (fun page =>
    if page.id = parentPage.id then false
    else
      let pagePathWithoutSlash := jsSlice page.name 1
      jsStartsWith pagePathWithoutSlash (parentPath ++ "/")
        || (decide (parentPath = "") && decide (page.name ≠ "/")))

/-- One side effect requested from the editor by a UI handler. `alert` is a
user-visible error message; `focusName`/`focusId` model
`setCurrentPage` applied to the page found by name/to a given page. -/
inductive Effect where
  | alert (msg : String)
  | createPage (name : String)
  | renamePage (id : Nat) (newName : String)
  | deletePage (id : Nat)
  | focusName (name : String)
  | focusId (id : Nat)
deriving DecidableEq, Repr

def cannotRenameRootMsg : String := "Cannot rename the root page"
def renameExistsMsg : String := "A page with this path already exists"
def addExistsMsg : String := "A page with this name already exists"
def cannotDeleteRootMsg : String := "Cannot delete the root page"

/-- `AddPageButton.handleAdd`: prompt for a name; if nonempty after trimming,
build the full path from the current page path (empty for root) plus a slash
plus the trimmed name; report an error if a page with that exact path exists,
otherwise create it and navigate to it. -/
def handleAdd (currentPage : MyPage) (allPages : List MyPage)
    (promptResult : Option String) : List Effect :=
  match promptResult with
  | none => []
  | some pageName =>
    if pageName = "" then []
    else if jsTrim pageName = "" then []
    else
      let currentPath := if currentPage.name = "/" then "" else currentPage.name
      let fullPath := currentPath ++ "/" ++ jsTrim pageName
      if (allPages.find? (fun p => p.name == fullPath)).isSome then
        [Effect.alert addExistsMsg]
      else
        [Effect.createPage fullPath, Effect.focusName fullPath]

/-- The loop in `RenamePageButton.handleRename` that walks the target path
segments except the last, accumulating the growing ancestor path, and creates
each ancestor for which no page with that exact path exists. -/
def missingAncestors (allPages : List MyPage) (acc : String) :
    List (List Char) → List Effect
  | [] => []
  | part :: rest =>
    let acc2 := acc ++ "/" ++ String.mk part
    (if (allPages.find? (fun p => p.name == acc2)).isSome then []
     else [Effect.createPage acc2])
      ++ missingAncestors allPages acc2 rest

/-- Normalization of the rename target in `RenamePageButton.handleRename`:
trim, then add a leading slash if the trimmed string does not start with
one. -/
def normalizeTarget (t : String) : String :=
  let trimmed := jsTrim t
  if jsStartsWith trimmed "/" then trimmed else "/" ++ trimmed

/-- `RenamePageButton.handleRename`: refuse to rename the root; otherwise,
given a prompt result that is nonempty after trimming and differs from the
current path, normalize it, report an error if any page already has the
normalized path, else create the missing ancestors of the target and rename
the page and every page `findAllChildPages` returns, a child path being
rewritten by replacing the first occurrence of the old path (without leading
slash) with the new one. -/
def handleRename (currentPage : MyPage) (allPages : List MyPage)
    (promptResult : Option String) : List Effect :=
  if currentPage.name = "/" then [Effect.alert cannotRenameRootMsg]
  else
    let currentPath := currentPage.name
    match promptResult with
    | none => []
    | some newPath =>
      if newPath = "" then []
      else if jsTrim newPath = "" then []
      else if jsTrim newPath = currentPath then []
      else
        let normalizedNewPath := normalizeTarget newPath
        if (allPages.find? (fun p => p.name == normalizedNewPath)).isSome then
          [Effect.alert renameExistsMsg]
        else
          let newFullPath := normalizedNewPath
          let pathParts := (splitChars normalizedNewPath.data).filter (fun l => decide (l ≠ []))
          let creates := missingAncestors allPages "" pathParts.dropLast
          let childPages := findAllChildPages currentPage allPages
          let oldPathWithoutSlash := jsSlice currentPage.name 1
          let newPathWithoutSlash := jsSlice newFullPath 1
          let pagesToUpdate := currentPage :: childPages
          let renames := pagesToUpdate.map (fun page =>
            Effect.renamePage page.id
              (if page.id = currentPage.id then newFullPath
               else "/" ++ jsReplaceFirst (jsSlice page.name 1)
                      oldPathWithoutSlash newPathWithoutSlash))
          creates ++ renames ++ [Effect.focusName newFullPath]

/-- The list `pagesToDelete` built by `deletePageAndChildren` in
`nav-types.ts`: the page itself followed by all its child pages. -/
def pagesToDelete (pageToDelete : MyPage) (allPages : List MyPage) : List MyPage :=
  pageToDelete :: findAllChildPages pageToDelete allPages

/-- `deletePageAndChildren` from `nav-types.ts`: delete the page and every
child page. -/
def deletePageAndChildren (pageToDelete : MyPage) (allPages : List MyPage) : List Effect :=
  (pagesToDelete pageToDelete allPages).map (fun p => Effect.deletePage p.id)

/-- `DeletePageButton.handleDelete`: after the user confirms, refuse to
delete the root page; otherwise find the parent page (to navigate to
afterwards, if it exists) and delete the page and all its children. -/
def handleDelete (currentPage : MyPage) (allPages : List MyPage)
    (confirmResult : Bool) : List Effect :=
  if confirmResult then
    if currentPage.name = "/" then [Effect.alert cannotDeleteRootMsg]
    else
      let parentPath :=
        if currentPage.my.parentPath = "" then "/" else "/" ++ currentPage.my.parentPath
      let targetPage := allPages.find? (fun p => p.name == parentPath)
      deletePageAndChildren currentPage allPages
        ++ (match targetPage with
            | some tp => [Effect.focusId tp.id]
            | none => [])
  else []

/-- A fresh page id for a created page: one more than the largest id in
use. -/
def nextPageId (pages : List TLPage) : Nat :=
  (pages.map (fun p => p.id)).foldr max 0 + 1

/-- Apply one effect to the editor page collection. Alerts and navigation
do not change the collection. -/
def applyEffect (pages : List TLPage) : Effect → List TLPage
  | Effect.createPage name => pages ++ [⟨nextPageId pages, name⟩]
  | Effect.renamePage id nm => pages.map (fun p => if p.id = id then ⟨p.id, nm⟩ else p)
  | Effect.deletePage id => pages.filter (fun p => decide (p.id ≠ id))
  | _ => pages

/-- Apply a list of effects from left to right. -/
def applyEffects (pages : List TLPage) (effs : List Effect) : List TLPage :=
  effs.foldl applyEffect pages

/-! ## Claim-side definitions

Definitions below formalize the vocabulary the specification uses to state
properties (the descendant relation, normalized paths, path reassembly,
ancestor prefix lists); they are compared against the behaviour of the
definitions above. -/

/-- The descendant relation of the specification (§3): `b` is a strict
descendant of `a` iff `b.path` starts with `a.path ++ "/"`; for the root,
every non-root node is a descendant. -/
def specDescendant (a b : MyPage) : Bool :=
  if a.name = "/" then decide (b.name ≠ "/")
  else (a.name ++ "/").data.isPrefixOf b.name.data

/-- A normalized path built from a list of segments: a leading slash
followed by the segments joined by slashes; the empty segment list gives the
root path. -/
def mkNormalizedPath (segs : List (List Char)) : String :=
  String.mk ('/' :: joinChars segs)

/-- Reassembling a path from the parsed `(name, parentPath)` pair, as the
round-trip law of the specification describes: a leading slash, then
`parentPath`, then a slash and the name, the `parentPath` part being omitted
when it is empty. -/
def reassemblePath (m : MyMeta) : String :=
  if m.parentPath = "" then "/" ++ m.name else "/" ++ m.parentPath ++ "/" ++ m.name

/-- The ancestor paths visited by the rename handler, walking the given
segments and extending the accumulated path one segment at a time. -/
def ancestorPaths (acc : String) : List (List Char) → List String
  | [] => []
  | part :: rest =>
    (acc ++ "/" ++ String.mk part) :: ancestorPaths (acc ++ "/" ++ String.mk part) rest

/-- A page name that is a well-formed path: it starts with a slash. -/
def pathLike (s : String) : Prop := s.data.head? = some '/'

instance (s : String) : Decidable (pathLike s) := by
  unfold pathLike; infer_instance

example : reassemblePath ⟨"c", "a/b"⟩ = "/a/b/c" := by decide
example : mkNormalizedPath [['a'], ['b']] = "/a/b" := by decide
example : specDescendant (getMyPageSingle ⟨1, "/a"⟩) (getMyPageSingle ⟨2, "/a/b"⟩) = true := by decide

/-! ## Helper lemmas about the string primitives -/

theorem splitChars_ne_nil : ∀ l : List Char, splitChars l ≠ []
  | [] => by simp [splitChars]
  | c :: cs => by
    simp only [splitChars]
    by_cases hc : c = '/'
    · simp [hc]
    · simp only [if_neg hc]
      cases h : splitChars cs <;> simp

theorem split_no_slash : ∀ {l : List Char}, '/' ∉ l → splitChars l = [l]
  | [], _ => rfl
  | c :: cs, h => by
    have hc : c ≠ '/' := fun e => h (e ▸ List.mem_cons_self c cs)
    have ih : splitChars cs = [cs] := split_no_slash fun m => h (List.mem_cons_of_mem c m)
    unfold splitChars
    rw [if_neg hc, ih]

theorem split_append : ∀ {l : List Char} (t : List Char), '/' ∉ l →
    splitChars (l ++ '/' :: t) = l :: splitChars t
  | [], t, _ => by simp [splitChars]
  | c :: cs, t, h => by
    have hc : c ≠ '/' := fun e => h (e ▸ List.mem_cons_self c cs)
    have ih := split_append (l := cs) t fun m => h (List.mem_cons_of_mem c m)
    rw [List.cons_append]
    conv in splitChars (c :: (cs ++ '/' :: t)) => rw [splitChars]
    rw [if_neg hc, ih]

theorem joinChars_cons_cons (l m : List Char) (ls : List (List Char)) :
    joinChars (l :: m :: ls) = l ++ '/' :: joinChars (m :: ls) := rfl

theorem splitChars_joinChars : ∀ {segs : List (List Char)}, segs ≠ [] →
    (∀ l ∈ segs, '/' ∉ l) → splitChars (joinChars segs) = segs
  | [], h, _ => absurd rfl h
  | [s], _, h => by
    simp only [joinChars]
    exact split_no_slash (h s (List.mem_singleton_self s))
  | s :: s2 :: rest, _, h => by
    rw [joinChars_cons_cons,
      split_append _ (h s (List.mem_cons_self s (s2 :: rest))),
      splitChars_joinChars (List.cons_ne_nil s2 rest)
        fun l hl => h l (List.mem_cons_of_mem s hl)]

theorem joinChars_cons_head (c : Char) (cs : List Char) (rest : List (List Char)) :
    ∃ t, joinChars ((c :: cs) :: rest) = c :: t := by
  cases rest with
  | nil => exact ⟨cs, rfl⟩
  | cons m ls => exact ⟨cs ++ '/' :: joinChars (m :: ls), rfl⟩

theorem joinChars_last : ∀ {segs : List (List Char)}, segs ≠ [] →
    (∀ l ∈ segs, l ≠ []) →
    ∃ init c, joinChars segs = init ++ [c] ∧ ∃ s ∈ segs, c ∈ s
  | [], h, _ => absurd rfl h
  | [s], _, h => by
    have hs : s ≠ [] := h s (List.mem_singleton_self s)
    refine ⟨s.dropLast, s.getLast hs, ?_, s, List.mem_singleton_self s,
      List.getLast_mem hs⟩
    simp [joinChars, List.dropLast_concat_getLast hs]
  | s :: s2 :: rest, _, h => by
    obtain ⟨init, c, heq, w, hw, hcw⟩ :=
      joinChars_last (List.cons_ne_nil s2 rest)
        fun l hl => h l (List.mem_cons_of_mem s hl)
    refine ⟨s ++ '/' :: init, c, ?_, w, List.mem_cons_of_mem s hw, hcw⟩
    rw [joinChars_cons_cons, heq]
    simp

theorem dropTrailing_append_of_neg {p : Char → Bool} {l : List Char} {c : Char}
    (h : p c = false) : dropTrailing p (l ++ [c]) = l ++ [c] := by
  unfold dropTrailing
  rw [List.reverse_append]
  simp [List.dropWhile_cons, h]

theorem dropTrailing_append_of_pos {p : Char → Bool} {l : List Char} {c : Char}
    (h : p c = true) : dropTrailing p (l ++ [c]) = dropTrailing p l := by
  unfold dropTrailing
  rw [List.reverse_append]
  simp [List.dropWhile_cons, h]

theorem stripSlashes_cons_slash (l : List Char) :
    stripSlashes ('/' :: l) = stripSlashes l := by
  unfold stripSlashes
  rw [List.dropWhile_cons]
  simp

theorem stripSlashes_append_slash (l : List Char) :
    stripSlashes (l ++ ['/']) = stripSlashes l := by
  unfold stripSlashes
  rw [List.dropWhile_append]
  cases h : l.dropWhile (fun c => decide (c = '/')) with
  | nil => simp
  | cons d ds =>
    simp only [List.isEmpty_cons, Bool.false_eq_true, if_false]
    have : ('/' : Char) :: ([] : List Char) = ['/'] := rfl
    rw [show d :: ds ++ ['/'] = (d :: ds) ++ ['/'] from rfl,
      dropTrailing_append_of_pos (by simp)]

theorem stripSlashes_join {segs : List (List Char)} (hne : segs ≠ [])
    (hval : ∀ l ∈ segs, l ≠ [] ∧ '/' ∉ l) :
    stripSlashes (joinChars segs) = joinChars segs := by
  obtain ⟨s, rest, rfl⟩ := List.exists_cons_of_ne_nil hne
  obtain ⟨c, cs, rfl⟩ :=
    List.exists_cons_of_ne_nil (hval s (List.mem_cons_self s rest)).1
  have hc : c ≠ '/' := fun e =>
    (hval _ (List.mem_cons_self _ rest)).2 (e ▸ List.mem_cons_self c cs)
  obtain ⟨init, d, heq, w, hw, hdw⟩ :=
    joinChars_last (List.cons_ne_nil _ rest) fun l hl => (hval l hl).1
  have hd : d ≠ '/' := fun e => (hval w hw).2 (e ▸ hdw)
  obtain ⟨t, ht⟩ := joinChars_cons_head c cs rest
  unfold stripSlashes
  rw [ht, List.dropWhile_cons]
  simp only [decide_eq_true_eq, hc, if_false]
  rw [← ht, heq, dropTrailing_append_of_neg (by simp [hd])]

theorem join_dropLast : ∀ (s s2 : List Char) (rest : List (List Char)),
    joinChars ((s :: s2 :: rest).dropLast)
        ++ '/' :: ((s2 :: rest).getLast?.getD [])
      = joinChars (s :: s2 :: rest)
  | s, s2, [] => by simp [joinChars]
  | s, s2, s3 :: rest => by
    have ih := join_dropLast s2 s3 rest
    rw [show (s2 :: s3 :: rest).dropLast = s2 :: (s3 :: rest).dropLast from rfl] at ih
    rw [List.getLast?_cons_cons]
    show joinChars (s :: s2 :: (s3 :: rest).dropLast) ++ _ = _
    rw [joinChars_cons_cons s s2 ((s3 :: rest).dropLast), List.append_assoc,
      List.cons_append, ih, ← joinChars_cons_cons]

theorem mk_eq_empty_iff (l : List Char) : String.mk l = "" ↔ l = [] := by
  constructor
  · intro h
    exact congrArg String.data h
  · intro h
    rw [h]

theorem joinChars_cons_ne_nil (c : Char) (cs : List Char) (rest : List (List Char)) :
    joinChars ((c :: cs) :: rest) ≠ [] := by
  obtain ⟨t, ht⟩ := joinChars_cons_head c cs rest
  rw [ht]
  exact List.cons_ne_nil c t

/-- C6: round-trip law. For every valid normalized path (a leading slash and
nonempty slash-free segments; the empty segment list gives the root `/`),
parsing it with `getMyPageSingle` and reassembling a path from the derived
`(name, parentPath)` pair reconstructs the original path. -/
theorem parse_reassemble_roundtrip (segs : List (List Char))
    (hval : ∀ l ∈ segs, l ≠ [] ∧ '/' ∉ l) :
    reassemblePath (getMyPageSingle ⟨0, mkNormalizedPath segs⟩).my
      = mkNormalizedPath segs := by
  cases segs with
  | nil => decide
  | cons s rest =>
    have hne : s :: rest ≠ [] := List.cons_ne_nil s rest
    have hparts : splitChars (stripSlashes (mkNormalizedPath (s :: rest)).data)
        = s :: rest := by
      show splitChars (stripSlashes ('/' :: joinChars (s :: rest))) = _
      rw [stripSlashes_cons_slash, stripSlashes_join hne hval,
        splitChars_joinChars hne fun l hl => (hval l hl).2]
    show reassemblePath
        ⟨String.mk ((splitChars (stripSlashes (mkNormalizedPath (s :: rest)).data)).getLast?.getD []),
         String.mk (joinChars (splitChars (stripSlashes (mkNormalizedPath (s :: rest)).data)).dropLast)⟩
      = mkNormalizedPath (s :: rest)
    rw [hparts]
    obtain ⟨c, cs, rfl⟩ := List.exists_cons_of_ne_nil (hval s (List.mem_cons_self s rest)).1
    cases rest with
    | nil =>
      apply String.ext
      simp [reassemblePath, mkNormalizedPath, joinChars]
    | cons s2 rest2 =>
      have hpp : String.mk (joinChars ((c :: cs) :: s2 :: rest2).dropLast) ≠ "" := by
        intro h
        exact joinChars_cons_ne_nil c cs ((s2 :: rest2).dropLast)
          (congrArg String.data h)
      rw [reassemblePath, if_neg hpp]
      apply String.ext
      simp only [String.data_append, mkNormalizedPath, List.append_assoc,
        List.singleton_append, List.cons_append]
      rw [List.getLast?_cons_cons]
      exact congrArg (List.cons '/') (join_dropLast (c :: cs) s2 rest2)

/-- Witness for C6 at the concrete path `/a/b/c`. -/
theorem parse_reassemble_roundtrip_witness :
    (∀ l ∈ [['a'], ['b'], ['c']], l ≠ [] ∧ '/' ∉ l) ∧
    reassemblePath (getMyPageSingle ⟨0, mkNormalizedPath [['a'], ['b'], ['c']]⟩).my
      = mkNormalizedPath [['a'], ['b'], ['c']] :=
  ⟨by decide, parse_reassemble_roundtrip [['a'], ['b'], ['c']] (by decide)⟩

/-- C5 counterexample: parsing does NOT remove internal empty segments, so
`/a//b` does not parse to the same `(name, parentPath)` pair as `/a/b` (its
parent path is `a/`, not `a`). -/
theorem parse_internal_empty_segment_cx :
    (getMyPageSingle ⟨0, "/a//b"⟩).my ≠ (getMyPageSingle ⟨0, "/a/b"⟩).my := by
  decide

/-- C5 (amended): parsing normalizes only the outer slashes of a path — the
derived fields are unchanged by adding a leading or a trailing slash — while
internal empty segments from repeated slashes are preserved in `parentPath`:
`/a//b` parses, without error, to name `b` and parent path `a/`. -/
theorem parse_normalizes_outer_slashes :
    (∀ (i : Nat) (s : String),
        (getMyPageSingle ⟨i, "/" ++ s⟩).my = (getMyPageSingle ⟨i, s⟩).my
      ∧ (getMyPageSingle ⟨i, s ++ "/"⟩).my = (getMyPageSingle ⟨i, s⟩).my)
    ∧ (getMyPageSingle ⟨0, "/a//b"⟩).my = ⟨"b", "a/"⟩ := by
  refine ⟨fun i s => ⟨?_, ?_⟩, by decide⟩
  · simp [getMyPageSingle, stripSlashes_cons_slash]
  · simp [getMyPageSingle, stripSlashes_append_slash]

theorem keyLe_total : ∀ (a b : List Nat), (keyLe a b || keyLe b a) = true
  | [], b => by simp [keyLe]
  | a :: as, [] => by simp [keyLe]
  | a :: as, b :: bs => by
    have ih := keyLe_total as bs
    simp only [keyLe, Bool.or_eq_true, decide_eq_true_eq, Bool.and_eq_true] at ih ⊢
    rcases Nat.lt_trichotomy a b with h | h | h
    · exact Or.inl (Or.inl h)
    · subst h
      rcases ih with h2 | h2
      · exact Or.inl (Or.inr ⟨rfl, h2⟩)
      · exact Or.inr (Or.inr ⟨rfl, h2⟩)
    · exact Or.inr (Or.inl h)

theorem keyLe_trans : ∀ (a b c : List Nat),
    keyLe a b = true → keyLe b c = true → keyLe a c = true
  | [], _, _, _, _ => by simp [keyLe]
  | a :: as, [], c, hab, _ => by simp [keyLe] at hab
  | a :: as, b :: bs, [], _, hbc => by simp [keyLe] at hbc
  | a :: as, b :: bs, c :: cs, hab, hbc => by
    simp only [keyLe, Bool.or_eq_true, decide_eq_true_eq, Bool.and_eq_true] at hab hbc ⊢
    rcases hab with hab | ⟨rfl, hab⟩
    · rcases hbc with hbc | ⟨rfl, _⟩
      · exact Or.inl (Nat.lt_trans hab hbc)
      · exact Or.inl hab
    · rcases hbc with hbc | ⟨rfl, hbc⟩
      · exact Or.inl hbc
      · exact Or.inr ⟨rfl, keyLe_trans as bs cs hab hbc⟩

theorem mergeSort_pair {α : Type} (le : α → α → Bool) (a b : α) :
    List.mergeSort [a, b] le = if le a b then [a, b] else [b, a] := by
  rw [List.mergeSort]
  simp [List.splitInTwo, List.splitAt, List.splitAt.go, List.merge]

/-- Plain code-unit (codepoint) lexicographic string order, the comparison
the specification asserts the sort uses. -/
def codeUnitLe : List Char → List Char → Bool
  | [], _ => true
  | _ :: _, [] => false
  | a :: as, b :: bs => decide (a.toNat < b.toNat) || (decide (a = b) && codeUnitLe as bs)

/-- C8 counterexample: `getMyPages` does not sort by plain code-unit string
comparison. With pages `/B` and `/a`, the produced order is `a` before `B`
(locale collation), while code-unit comparison puts `B` (0x42) before `a`
(0x61). -/
theorem sort_not_code_unit_order :
    ¬ List.Pairwise (fun a b : MyPage => codeUnitLe a.my.name.data b.my.name.data = true)
      (getMyPages [⟨0, "/B"⟩, ⟨1, "/a"⟩]) := by
  have h : getMyPages [⟨0, "/B"⟩, ⟨1, "/a"⟩]
      = [getMyPageSingle ⟨1, "/a"⟩, getMyPageSingle ⟨0, "/B"⟩] := by
    show ([(⟨0, "/B"⟩ : TLPage), ⟨1, "/a"⟩].map getMyPageSingle).mergeSort
        (fun a b => localeLe a.my.name b.my.name)
      = _
    rw [List.map_cons, List.map_cons, List.map_nil, mergeSort_pair]
    decide
  rw [h]
  decide

/-- C8 (amended): for every input list, `getMyPages` returns the parsed pages
sorted by `my.name` ascending under the locale-aware `localeCompare`
collation (case-insensitive primary comparison, lowercase before uppercase on
ties) — not under code-unit comparison — and the result is a permutation of
the parsed input. -/
theorem sort_by_locale_order (pages : List TLPage) :
    List.Pairwise (fun a b : MyPage => localeLe a.my.name b.my.name = true)
      (getMyPages pages)
    ∧ List.Perm (getMyPages pages) (pages.map getMyPageSingle) := by
  constructor
  · exact @List.sorted_mergeSort MyPage (fun a b => localeLe a.my.name b.my.name)
      (fun a b c hab hbc => keyLe_trans _ _ _ hab hbc)
      (fun a b => keyLe_total _ _)
      (pages.map getMyPageSingle)
  · exact List.mergeSort_perm _ _

/-! ## Branch equations for the rename handler -/

theorem handleRename_root (c : MyPage) (ps : List MyPage) (pr : Option String)
    (h : c.name = "/") : handleRename c ps pr = [Effect.alert cannotRenameRootMsg] := by
  simp only [handleRename, if_pos h]

theorem handleRename_none (c : MyPage) (ps : List MyPage) (h : c.name ≠ "/") :
    handleRename c ps none = [] := by
  simp only [handleRename, if_neg h]

theorem handleRename_trivial (c : MyPage) (ps : List MyPage) (t : String)
    (h : c.name ≠ "/") (hg : t = "" ∨ jsTrim t = "" ∨ jsTrim t = c.name) :
    handleRename c ps (some t) = [] := by
  simp only [handleRename, if_neg h]
  split_ifs with h1 h2 h3 h4 <;>
    first
      | rfl
      | (rcases hg with hg | hg | hg
         · exact absurd hg h1
         · exact absurd hg h2
         · exact absurd hg h3)

theorem handleRename_occupied (c : MyPage) (ps : List MyPage) (t : String)
    (h : c.name ≠ "/") (h1 : t ≠ "") (h2 : jsTrim t ≠ "") (h3 : jsTrim t ≠ c.name)
    (h4 : ∃ p ∈ ps, p.name = normalizeTarget t) :
    handleRename c ps (some t) = [Effect.alert renameExistsMsg] := by
  have hfind : (ps.find? (fun p => p.name == normalizeTarget t)).isSome = true := by
    rw [List.find?_isSome]
    obtain ⟨p, hp, he⟩ := h4
    exact ⟨p, hp, by simp [he]⟩
  simp only [handleRename, if_neg h, if_neg h1, if_neg h2, if_neg h3, hfind, if_true]

theorem handleRename_success (c : MyPage) (ps : List MyPage) (t : String)
    (h : c.name ≠ "/") (h1 : t ≠ "") (h2 : jsTrim t ≠ "") (h3 : jsTrim t ≠ c.name)
    (h4 : ∀ p ∈ ps, p.name ≠ normalizeTarget t) :
    handleRename c ps (some t) =
      missingAncestors ps ""
          ((splitChars (normalizeTarget t).data).filter (fun l => decide (l ≠ []))).dropLast
        ++ (c :: findAllChildPages c ps).map (fun page =>
              Effect.renamePage page.id
                (if page.id = c.id then normalizeTarget t
                 else "/" ++ jsReplaceFirst (jsSlice page.name 1)
                        (jsSlice c.name 1) (jsSlice (normalizeTarget t) 1)))
        ++ [Effect.focusName (normalizeTarget t)] := by
  have hfind : (ps.find? (fun p => p.name == normalizeTarget t)) = none := by
    rw [List.find?_eq_none]
    intro p hp
    simpa using h4 p hp
  simp only [handleRename, if_neg h, if_neg h1, if_neg h2, if_neg h3, hfind,
    Option.isSome_none, Bool.false_eq_true, if_false]

theorem missingAncestors_shape : ∀ (l : List (List Char)) (ps : List MyPage)
    (acc : String), ∀ e ∈ missingAncestors ps acc l, ∃ nm, e = Effect.createPage nm
  | [], ps, acc => by simp [missingAncestors]
  | part :: rest, ps, acc => by
    intro e he
    simp only [missingAncestors, List.mem_append] at he
    rcases he with he | he
    · rcases Decidable.em ((ps.find? (fun p =>
          p.name == acc ++ "/" ++ String.mk part)).isSome = true) with hf | hf
      · rw [if_pos hf] at he
        simp at he
      · rw [if_neg hf] at he
        simp only [List.mem_singleton] at he
        exact ⟨acc ++ "/" ++ String.mk part, he⟩
    · exact missingAncestors_shape rest ps (acc ++ "/" ++ String.mk part) e he

theorem alert_not_mem_rename_success (m : String) (c : MyPage)
    (ps : List MyPage) (t : String) :
    Effect.alert m ∉
      missingAncestors ps ""
          ((splitChars (normalizeTarget t).data).filter (fun l => decide (l ≠ []))).dropLast
        ++ (c :: findAllChildPages c ps).map (fun page =>
              Effect.renamePage page.id
                (if page.id = c.id then normalizeTarget t
                 else "/" ++ jsReplaceFirst (jsSlice page.name 1)
                        (jsSlice c.name 1) (jsSlice (normalizeTarget t) 1)))
        ++ [Effect.focusName (normalizeTarget t)] := by
  intro hm
  rcases List.mem_append.1 hm with hm | hm
  · rcases List.mem_append.1 hm with hm | hm
    · obtain ⟨nm, he⟩ := missingAncestors_shape _ ps "" _ hm
      exact Effect.noConfusion he
    · obtain ⟨q, hq, he⟩ := List.mem_map.1 hm
      exact Effect.noConfusion he
  · simp at hm

/-- C10: renaming a non-root node to a target whose trimmed form equals the
node's current path is a silent no-op: no effect is produced (no error, no
ancestor creation, no rename) and the page collection is unchanged. -/
theorem rename_to_same_path_noop (c : MyPage) (ps : List MyPage) (t : String)
    (h : c.name ≠ "/") (heq : jsTrim t = c.name) :
    handleRename c ps (some t) = []
    ∧ ∀ pages : List TLPage, applyEffects pages (handleRename c ps (some t)) = pages := by
  have h0 := handleRename_trivial c ps t h (Or.inr (Or.inr heq))
  exact ⟨h0, fun pages => by rw [h0]; rfl⟩

/-- Witness for C10: renaming `/a` to `" /a "` (which trims to its current
path) emits no effect. -/
theorem rename_to_same_path_noop_witness :
    handleRename (getMyPageSingle ⟨1, "/a"⟩)
        ([⟨0, "/"⟩, ⟨1, "/a"⟩].map getMyPageSingle) (some " /a ") = []
    ∧ applyEffects [⟨0, "/"⟩, ⟨1, "/a"⟩]
        (handleRename (getMyPageSingle ⟨1, "/a"⟩)
          ([⟨0, "/"⟩, ⟨1, "/a"⟩].map getMyPageSingle) (some " /a "))
      = [⟨0, "/"⟩, ⟨1, "/a"⟩] :=
  have h := rename_to_same_path_noop (getMyPageSingle ⟨1, "/a"⟩)
    ([⟨0, "/"⟩, ⟨1, "/a"⟩].map getMyPageSingle) " /a " (by decide) (by decide)
  ⟨h.1, h.2 [⟨0, "/"⟩, ⟨1, "/a"⟩]⟩

/-- C2 counterexample: with pages `{/, /a}`, renaming `/a` with raw input
`"a"` (which normalizes to `/a`, the node's own current path) is reported as
an AlreadyExists error even though the only occupant of the target path is
the renamed node itself. -/
theorem rename_self_collision_cx :
    handleRename (getMyPageSingle ⟨1, "/a"⟩)
        ([⟨0, "/"⟩, ⟨1, "/a"⟩].map getMyPageSingle) (some "a")
      = [Effect.alert renameExistsMsg]
    ∧ ∀ p ∈ [⟨0, "/"⟩, ⟨1, "/a"⟩].map getMyPageSingle,
        p.name = normalizeTarget "a" → p = getMyPageSingle ⟨1, "/a"⟩ :=
  ⟨by decide, by decide⟩

/-- C2 (amended): the rename handler reports CannotRenameRoot exactly when
the node's path is `/`; it reports AlreadyExists exactly when the node is not
the root, the prompt produced a string that is nonempty after trimming and
whose trimmed form differs from the current path, and some node — possibly
the renamed node itself, when the raw target merely normalizes to its current
path — already occupies the normalized target path. -/
theorem rename_error_conditions (c : MyPage) (ps : List MyPage) (pr : Option String) :
    (Effect.alert cannotRenameRootMsg ∈ handleRename c ps pr ↔ c.name = "/")
    ∧ (Effect.alert renameExistsMsg ∈ handleRename c ps pr ↔
        (c.name ≠ "/" ∧ ∃ t, pr = some t ∧ t ≠ "" ∧ jsTrim t ≠ "" ∧ jsTrim t ≠ c.name
          ∧ ∃ p ∈ ps, p.name = normalizeTarget t)) := by
  have hmsg : renameExistsMsg ≠ cannotRenameRootMsg := by decide
  by_cases h : c.name = "/"
  · rw [handleRename_root c ps pr h]
    refine ⟨by simp [h], ⟨fun hm => ?_, fun hr => absurd h hr.1⟩⟩
    simp only [List.mem_singleton, Effect.alert.injEq] at hm
    exact absurd hm hmsg
  · cases pr with
    | none =>
      rw [handleRename_none c ps h]
      exact ⟨by simp [h], by simp⟩
    | some t =>
      by_cases h1 : t = ""
      · rw [handleRename_trivial c ps t h (Or.inl h1)]
        refine ⟨by simp [h], ⟨fun hm => absurd hm (List.not_mem_nil _), ?_⟩⟩
        rintro ⟨-, t2, heq, ht1, -, -, -⟩
        injection heq with e
        exact (ht1 (e ▸ h1)).elim
      · by_cases h2 : jsTrim t = ""
        · rw [handleRename_trivial c ps t h (Or.inr (Or.inl h2))]
          refine ⟨by simp [h], ⟨fun hm => absurd hm (List.not_mem_nil _), ?_⟩⟩
          rintro ⟨-, t2, heq, -, ht2, -, -⟩
          injection heq with e
          exact (ht2 (e ▸ h2)).elim
        · by_cases h3 : jsTrim t = c.name
          · rw [handleRename_trivial c ps t h (Or.inr (Or.inr h3))]
            refine ⟨by simp [h], ⟨fun hm => absurd hm (List.not_mem_nil _), ?_⟩⟩
            rintro ⟨-, t2, heq, -, -, ht3, -⟩
            injection heq with e
            exact (ht3 (e ▸ h3)).elim
          · by_cases h4 : ∃ p ∈ ps, p.name = normalizeTarget t
            · rw [handleRename_occupied c ps t h h1 h2 h3 h4]
              refine ⟨⟨fun hm => ?_, fun hv => absurd hv h⟩,
                ⟨fun _ => ⟨h, t, rfl, h1, h2, h3, h4⟩, fun _ => List.mem_singleton_self _⟩⟩
              simp only [List.mem_singleton, Effect.alert.injEq] at hm
              exact absurd hm.symm hmsg
            · push_neg at h4
              rw [handleRename_success c ps t h h1 h2 h3 h4]
              refine ⟨⟨fun hm => absurd hm (alert_not_mem_rename_success _ c ps t),
                fun hv => absurd hv h⟩,
                ⟨fun hm => absurd hm (alert_not_mem_rename_success _ c ps t), ?_⟩⟩
              rintro ⟨-, t2, heq, -, -, -, p, hp, hpe⟩
              injection heq with e
              subst e
              exact absurd hpe (h4 p hp)

/-- The candidate path `handleAdd` builds: the current page path (empty
string for the root) followed by a slash and the trimmed new name. -/
def addFullPath (c : MyPage) (pn : String) : String :=
  (if c.name = "/" then "" else c.name) ++ "/" ++ jsTrim pn

theorem handleAdd_trivial (c : MyPage) (ps : List MyPage) (pn : String)
    (hg : pn = "" ∨ jsTrim pn = "") : handleAdd c ps (some pn) = [] := by
  simp only [handleAdd]
  split_ifs with h1 h2 h3 <;>
    first
      | rfl
      | (rcases hg with hg | hg
         · exact absurd hg h1
         · exact absurd hg h2)

theorem handleAdd_some (c : MyPage) (ps : List MyPage) (pn : String)
    (h1 : pn ≠ "") (h2 : jsTrim pn ≠ "") :
    handleAdd c ps (some pn) =
      if (ps.find? (fun p => p.name == addFullPath c pn)).isSome
      then [Effect.alert addExistsMsg]
      else [Effect.createPage (addFullPath c pn), Effect.focusName (addFullPath c pn)] := by
  simp only [handleAdd, if_neg h1, if_neg h2, addFullPath]

/-- C9: AlreadyExists failures are atomic. Whenever the add handler or the
rename handler reports that the target path is already occupied, the alert is
its only effect: no page is created, renamed or deleted, and applying the
handler effects to any page collection leaves it exactly as it was. -/
theorem alreadyExists_atomic :
    (∀ (pages : List TLPage) (c : MyPage) (ps : List MyPage) (pr : Option String),
        Effect.alert addExistsMsg ∈ handleAdd c ps pr →
          handleAdd c ps pr = [Effect.alert addExistsMsg]
          ∧ applyEffects pages (handleAdd c ps pr) = pages)
    ∧ (∀ (pages : List TLPage) (c : MyPage) (ps : List MyPage) (pr : Option String),
        Effect.alert renameExistsMsg ∈ handleRename c ps pr →
          handleRename c ps pr = [Effect.alert renameExistsMsg]
          ∧ applyEffects pages (handleRename c ps pr) = pages) := by
  constructor
  · intro pages c ps pr hm
    cases pr with
    | none => simp [handleAdd] at hm
    | some pn =>
      by_cases h1 : pn = ""
      · rw [handleAdd_trivial c ps pn (Or.inl h1)] at hm
        exact absurd hm (List.not_mem_nil _)
      · by_cases h2 : jsTrim pn = ""
        · rw [handleAdd_trivial c ps pn (Or.inr h2)] at hm
          exact absurd hm (List.not_mem_nil _)
        · rw [handleAdd_some c ps pn h1 h2] at hm ⊢
          by_cases hf : (ps.find? (fun p => p.name == addFullPath c pn)).isSome = true
          · rw [if_pos hf]
            exact ⟨rfl, rfl⟩
          · rw [if_neg hf] at hm
            simp at hm
  · intro pages c ps pr hm
    by_cases h : c.name = "/"
    · rw [handleRename_root c ps pr h] at hm
      simp only [List.mem_singleton, Effect.alert.injEq] at hm
      exact absurd hm (by decide)
    · cases pr with
      | none =>
        rw [handleRename_none c ps h] at hm
        exact absurd hm (List.not_mem_nil _)
      | some t =>
        by_cases h1 : t = ""
        · rw [handleRename_trivial c ps t h (Or.inl h1)] at hm
          exact absurd hm (List.not_mem_nil _)
        · by_cases h2 : jsTrim t = ""
          · rw [handleRename_trivial c ps t h (Or.inr (Or.inl h2))] at hm
            exact absurd hm (List.not_mem_nil _)
          · by_cases h3 : jsTrim t = c.name
            · rw [handleRename_trivial c ps t h (Or.inr (Or.inr h3))] at hm
              exact absurd hm (List.not_mem_nil _)
            · by_cases h4 : ∃ p ∈ ps, p.name = normalizeTarget t
              · rw [handleRename_occupied c ps t h h1 h2 h3 h4]
                exact ⟨rfl, rfl⟩
              · push_neg at h4
                rw [handleRename_success c ps t h h1 h2 h3 h4] at hm
                exact absurd hm (alert_not_mem_rename_success _ c ps t)

/-- Witness for C9 at a concrete occupied create: adding `b` under `/a` when
`/a/b` already exists yields only the alert and leaves the collection
unchanged. -/
theorem alreadyExists_atomic_witness :
    handleAdd (getMyPageSingle ⟨1, "/a"⟩)
        ([⟨0, "/"⟩, ⟨1, "/a"⟩, ⟨2, "/a/b"⟩].map getMyPageSingle) (some "b")
      = [Effect.alert addExistsMsg]
    ∧ applyEffects [⟨0, "/"⟩, ⟨1, "/a"⟩, ⟨2, "/a/b"⟩]
        (handleAdd (getMyPageSingle ⟨1, "/a"⟩)
          ([⟨0, "/"⟩, ⟨1, "/a"⟩, ⟨2, "/a/b"⟩].map getMyPageSingle) (some "b"))
      = [⟨0, "/"⟩, ⟨1, "/a"⟩, ⟨2, "/a/b"⟩] :=
  alreadyExists_atomic.1 [⟨0, "/"⟩, ⟨1, "/a"⟩, ⟨2, "/a/b"⟩]
    (getMyPageSingle ⟨1, "/a"⟩)
    ([⟨0, "/"⟩, ⟨1, "/a"⟩, ⟨2, "/a/b"⟩].map getMyPageSingle) (some "b") (by decide)

theorem pathLike_exists {s : String} (h : pathLike s) : ∃ t, s.data = '/' :: t := by
  unfold pathLike at h
  cases hd : s.data with
  | nil => rw [hd] at h; simp at h
  | cons a l =>
    rw [hd] at h
    simp only [List.head?_cons, Option.some.injEq] at h
    exact ⟨l, by rw [h]⟩

theorem childCond_eq (c p : MyPage) (hcroot : c.name ≠ "/")
    (hc : pathLike c.name) (hp : pathLike p.name) :
    (if p.id = c.id then false
     else
       jsStartsWith (jsSlice p.name 1)
           ((if c.name = "/" then "" else jsSlice c.name 1) ++ "/")
         || (decide ((if c.name = "/" then "" else jsSlice c.name 1) = "")
              && decide (p.name ≠ "/")))
    = (decide (p.id ≠ c.id) && (c.name ++ "/").data.isPrefixOf p.name.data) := by
  by_cases hid : p.id = c.id
  · simp [hid]
  · rw [if_neg hid]
    obtain ⟨ct, hct⟩ := pathLike_exists hc
    obtain ⟨pt, hpt⟩ := pathLike_exists hp
    have hctne : ct ≠ [] := by
      intro hne
      apply hcroot
      apply String.ext
      rw [hct, hne]
    have h1 : (if c.name = "/" then "" else jsSlice c.name 1) = String.mk ct := by
      rw [if_neg hcroot]
      simp [jsSlice, hct]
    rw [h1]
    have h2 : (decide ((String.mk ct) = "") && decide (p.name ≠ "/")) = false := by
      have hne : ¬ (String.mk ct = "") := fun he => hctne ((mk_eq_empty_iff ct).1 he)
      simp [hne]
    rw [h2, Bool.or_false]
    have hd : decide (p.id ≠ c.id) = true := by simp [hid]
    rw [hd, Bool.true_and, jsStartsWith]
    have e1 : (String.mk ct ++ "/").data = ct ++ ['/'] := rfl
    have e2 : (jsSlice p.name 1).data = pt := by simp [jsSlice, hpt]
    have e3 : (c.name ++ "/").data = '/' :: (ct ++ ['/']) := by
      simp [hct]
    rw [e1, e2, e3, hpt, List.isPrefixOf_cons₂_self]

theorem mem_findAllChildPages {c p : MyPage} {ps : List MyPage}
    (hcroot : c.name ≠ "/") (hc : pathLike c.name) (hp : pathLike p.name) :
    p ∈ findAllChildPages c ps
      ↔ p ∈ ps ∧ p.id ≠ c.id ∧ (c.name ++ "/").data <+: p.name.data := by
  unfold findAllChildPages
  rw [List.mem_filter]
  apply and_congr_right
  intro _
  rw [childCond_eq c p hcroot hc hp]
  simp [List.isPrefixOf_iff_prefix]

theorem append_slash_isPrefixOf_false (l : List Char) :
    (l ++ ['/']).isPrefixOf l = false := by
  apply Bool.eq_false_iff.2
  intro hb
  rw [List.isPrefixOf_iff_prefix] at hb
  have hlen := hb.length_le
  simp only [List.length_append, List.length_cons, List.length_nil] at hlen
  omega

/-- C3: for every tree satisfying the data-model invariants and every
non-root node, the delete operation collects exactly the node itself together
with its strict descendants (in the specification's path-prefix sense), so
its size is `1 + count(descendants)`; for the root node the delete handler is
refused for every tree and every confirmation: it emits no delete effect and
leaves every page collection unchanged. -/
theorem delete_returns_subtree (node : MyPage) (ps : List MyPage)
    (hmem : node ∈ ps) (hroot : node.name ≠ "/")
    (hwf : ∀ p ∈ ps, pathLike p.name)
    (hids : (ps.map (fun p => p.id)).Nodup) :
    ((∀ p, p ∈ pagesToDelete node ps
        ↔ (p = node ∨ (p ∈ ps ∧ specDescendant node p = true)))
      ∧ (pagesToDelete node ps).length
          = 1 + (ps.filter (fun p => specDescendant node p)).length)
    ∧ (∀ (root2 : MyPage) (ps2 : List MyPage) (confirm : Bool) (pages : List TLPage),
        root2.name = "/" →
          (∀ i, Effect.deletePage i ∉ handleDelete root2 ps2 confirm)
          ∧ applyEffects pages (handleDelete root2 ps2 confirm) = pages) := by
  have hinj : ∀ p ∈ ps, ∀ q ∈ ps, p.id = q.id → p = q :=
    fun p hp q hq => List.inj_on_of_nodup_map hids hp hq
  have hfeq : findAllChildPages node ps = ps.filter (fun p => specDescendant node p) := by
    unfold findAllChildPages
    apply List.filter_congr
    intro p hp
    rw [childCond_eq node p hroot (hwf node hmem) (hwf p hp)]
    unfold specDescendant
    rw [if_neg hroot]
    by_cases hid : p.id = node.id
    · have hpn : p = node := hinj p hp node hmem hid
      subst hpn
      simp [append_slash_isPrefixOf_false]
    · have hd : decide (p.id ≠ node.id) = true := by simp [hid]
      rw [hd, Bool.true_and]
  refine ⟨⟨fun p => ?_, ?_⟩, ?_⟩
  · unfold pagesToDelete
    rw [List.mem_cons, hfeq, List.mem_filter]
  · unfold pagesToDelete
    rw [hfeq]
    simp [Nat.add_comm]
  · intro root2 ps2 confirm pages hr
    cases confirm with
    | false => exact ⟨fun i hm => absurd hm (List.not_mem_nil _), rfl⟩
    | true =>
      rw [show handleDelete root2 ps2 true = [Effect.alert cannotDeleteRootMsg] from
        by simp [handleDelete, hr]]
      exact ⟨fun i hm => by simp at hm, rfl⟩

/-- Witness for C3 at the concrete tree `{/, /a, /a/b, /a/b/c}` deleting
`/a`, and the root refusal at the same tree. -/
theorem delete_returns_subtree_witness :
    ((getMyPageSingle ⟨1, "/a"⟩) ∈ ([⟨0, "/"⟩, ⟨1, "/a"⟩, ⟨2, "/a/b"⟩, ⟨3, "/a/b/c"⟩].map getMyPageSingle)
      ∧ (pagesToDelete (getMyPageSingle ⟨1, "/a"⟩)
          ([⟨0, "/"⟩, ⟨1, "/a"⟩, ⟨2, "/a/b"⟩, ⟨3, "/a/b/c"⟩].map getMyPageSingle)).length
        = 1 + (([⟨0, "/"⟩, ⟨1, "/a"⟩, ⟨2, "/a/b"⟩, ⟨3, "/a/b/c"⟩].map getMyPageSingle).filter
            (fun p => specDescendant (getMyPageSingle ⟨1, "/a"⟩) p)).length)
    ∧ ((∀ i, Effect.deletePage i ∉ handleDelete (getMyPageSingle ⟨0, "/"⟩)
          ([⟨0, "/"⟩, ⟨1, "/a"⟩].map getMyPageSingle) true)
        ∧ applyEffects [⟨0, "/"⟩, ⟨1, "/a"⟩]
            (handleDelete (getMyPageSingle ⟨0, "/"⟩)
              ([⟨0, "/"⟩, ⟨1, "/a"⟩].map getMyPageSingle) true) = [⟨0, "/"⟩, ⟨1, "/a"⟩]) :=
  have h := delete_returns_subtree (getMyPageSingle ⟨1, "/a"⟩)
    ([⟨0, "/"⟩, ⟨1, "/a"⟩, ⟨2, "/a/b"⟩, ⟨3, "/a/b/c"⟩].map getMyPageSingle)
    (by decide) (by decide) (by decide) (by decide)
  ⟨⟨by decide, h.1.2⟩,
    h.2 (getMyPageSingle ⟨0, "/"⟩) ([⟨0, "/"⟩, ⟨1, "/a"⟩].map getMyPageSingle) true
      [⟨0, "/"⟩, ⟨1, "/a"⟩] (by decide)⟩

/-- C7: the add handler builds the candidate path from the parent path
(empty string for the root) plus a slash plus the trimmed name, and fails
with AlreadyExists exactly when some existing node's path equals that
candidate exactly (case-sensitive string equality); when no node occupies the
candidate path, it creates exactly one new node with that path. -/
theorem create_exact_match (c : MyPage) (ps : List MyPage) (pn : String)
    (h1 : pn ≠ "") (h2 : jsTrim pn ≠ "") :
    (handleAdd c ps (some pn) = [Effect.alert addExistsMsg]
        ↔ ∃ p ∈ ps, p.name = addFullPath c pn)
    ∧ ((∀ p ∈ ps, p.name ≠ addFullPath c pn) →
        handleAdd c ps (some pn)
            = [Effect.createPage (addFullPath c pn), Effect.focusName (addFullPath c pn)]
        ∧ ∀ pages : List TLPage,
            ((applyEffects pages (handleAdd c ps (some pn))).filter
                (fun q => q.name == addFullPath c pn)).length
              = (pages.filter (fun q => q.name == addFullPath c pn)).length + 1) := by
  constructor
  · rw [handleAdd_some c ps pn h1 h2]
    by_cases hf : (ps.find? (fun p => p.name == addFullPath c pn)).isSome = true
    · rw [if_pos hf]
      constructor
      · intro _
        obtain ⟨p, hp, he⟩ := List.find?_isSome.1 hf
        exact ⟨p, hp, by simpa using he⟩
      · intro _
        rfl
    · rw [if_neg hf]
      constructor
      · intro he
        exact absurd he (by simp)
      · rintro ⟨p, hp, he⟩
        exact absurd (List.find?_isSome.2 ⟨p, hp, by simp [he]⟩) hf
  · intro hfree
    have hf : (ps.find? (fun p => p.name == addFullPath c pn)) = none := by
      rw [List.find?_eq_none]
      intro p hp
      simpa using hfree p hp
    have heq : handleAdd c ps (some pn)
        = [Effect.createPage (addFullPath c pn), Effect.focusName (addFullPath c pn)] := by
      rw [handleAdd_some c ps pn h1 h2, hf]
      simp
    refine ⟨heq, fun pages => ?_⟩
    rw [heq]
    have happ : applyEffects pages
        [Effect.createPage (addFullPath c pn), Effect.focusName (addFullPath c pn)]
        = pages ++ [⟨nextPageId pages, addFullPath c pn⟩] := rfl
    rw [happ, List.filter_append, List.length_append]
    simp

/-- Witness for C7: the scenario `create(parent /a, name b)` on `{/, /a}`
succeeds producing `/a/b`; repeating the call against the updated collection
fails with AlreadyExists. -/
theorem create_exact_match_witness :
    handleAdd (getMyPageSingle ⟨1, "/a"⟩)
        ([⟨0, "/"⟩, ⟨1, "/a"⟩].map getMyPageSingle) (some "b")
      = [Effect.createPage "/a/b", Effect.focusName "/a/b"]
    ∧ handleAdd (getMyPageSingle ⟨1, "/a"⟩)
        ((applyEffects [⟨0, "/"⟩, ⟨1, "/a"⟩]
          (handleAdd (getMyPageSingle ⟨1, "/a"⟩)
            ([⟨0, "/"⟩, ⟨1, "/a"⟩].map getMyPageSingle) (some "b"))).map getMyPageSingle)
        (some "b")
      = [Effect.alert addExistsMsg] := by
  constructor
  · have h := ((create_exact_match (getMyPageSingle ⟨1, "/a"⟩)
      ([⟨0, "/"⟩, ⟨1, "/a"⟩].map getMyPageSingle) "b" (by decide) (by decide)).2
        (by decide)).1
    rw [h]
    decide
  · exact (create_exact_match (getMyPageSingle ⟨1, "/a"⟩) _ "b"
      (by decide) (by decide)).1.mpr ⟨getMyPageSingle ⟨2, "/a/b"⟩, by decide, by decide⟩

theorem normalizeTarget_exists (t : String) :
    ∃ nt, (normalizeTarget t).data = '/' :: nt := by
  unfold normalizeTarget
  by_cases hs : jsStartsWith (jsTrim t) "/" = true
  · rw [if_pos hs]
    rw [jsStartsWith, List.isPrefixOf_iff_prefix] at hs
    obtain ⟨ts, hts⟩ := hs
    exact ⟨ts, by rw [← hts]; rfl⟩
  · rw [if_neg hs]
    exact ⟨(jsTrim t).data, rfl⟩

theorem replaceFirst_append (pat repl r : List Char) :
    replaceFirst pat repl (pat ++ r) = repl ++ r := by
  have hpre : pat.isPrefixOf (pat ++ r) = true := by
    rw [List.isPrefixOf_iff_prefix]
    exact List.prefix_append pat r
  cases hs : pat ++ r with
  | nil =>
    obtain ⟨hp, hr⟩ := List.append_eq_nil.1 hs
    subst hp
    subst hr
    simp [replaceFirst]
  | cons c cs =>
    rw [hs] at hpre
    calc replaceFirst pat repl (c :: cs)
        = repl ++ (c :: cs).drop pat.length := by rw [replaceFirst, if_pos hpre]
      _ = repl ++ (pat ++ r).drop pat.length := by rw [← hs]
      _ = repl ++ r := by rw [List.drop_left]

/-- C1: prefix-safe rename. For a well-formed tree (paths start with `/`,
distinct ids), a non-root node and an accepted, unoccupied target: the node
itself is renamed to the normalized target; every strict descendant (a node
whose path is the old path, a slash, and a remainder) is renamed to the new
path followed by a slash and the same remainder, verbatim; and no node
outside the renamed subtree receives any rename effect. -/
theorem rename_prefix_safe (c : MyPage) (ps : List MyPage) (t : String)
    (hwf : ∀ p ∈ ps, pathLike p.name) (hmem : c ∈ ps) (hroot : c.name ≠ "/")
    (hids : (ps.map (fun p => p.id)).Nodup)
    (h1 : t ≠ "") (h2 : jsTrim t ≠ "") (h3 : jsTrim t ≠ c.name)
    (hfree : ∀ p ∈ ps, p.name ≠ normalizeTarget t) :
    (Effect.renamePage c.id (normalizeTarget t) ∈ handleRename c ps (some t))
    ∧ (∀ p ∈ ps, ∀ rem : String, p.name = c.name ++ "/" ++ rem →
        Effect.renamePage p.id (normalizeTarget t ++ "/" ++ rem)
          ∈ handleRename c ps (some t))
    ∧ (∀ p ∈ ps, p.id ≠ c.id → (¬ (c.name ++ "/").data <+: p.name.data) →
        ∀ nm, Effect.renamePage p.id nm ∉ handleRename c ps (some t)) := by
  rw [handleRename_success c ps t hroot h1 h2 h3 hfree]
  obtain ⟨ct, hct⟩ := pathLike_exists (hwf c hmem)
  obtain ⟨nt, hnt⟩ := normalizeTarget_exists t
  have hinj : ∀ p ∈ ps, ∀ q ∈ ps, p.id = q.id → p = q :=
    fun p hp q hq => List.inj_on_of_nodup_map hids hp hq
  refine ⟨?_, ?_, ?_⟩
  · apply List.mem_append.2
    left
    apply List.mem_append.2
    right
    apply List.mem_map.2
    exact ⟨c, List.mem_cons_self c _, by rw [if_pos rfl]⟩
  · intro p hp rem hrem
    have hpc : p ≠ c := by
      intro he
      have hlen := congrArg (fun s : String => s.data.length) hrem
      rw [he] at hlen
      have hone : ("/" : String).data.length = 1 := rfl
      simp only [String.data_append, List.length_append, hone] at hlen
      omega
    have hid : p.id ≠ c.id := fun he => hpc (hinj p hp c hmem he)
    have hchild : p ∈ findAllChildPages c ps := by
      rw [mem_findAllChildPages hroot (hwf c hmem) (hwf p hp)]
      refine ⟨hp, hid, ?_⟩
      rw [hrem]
      exact ⟨rem.data, (String.data_append (c.name ++ "/") rem).symm⟩
    apply List.mem_append.2
    left
    apply List.mem_append.2
    right
    apply List.mem_map.2
    refine ⟨p, List.mem_cons_of_mem c hchild, ?_⟩
    rw [if_neg hid]
    congr 1
    apply String.ext
    have e1 : (jsSlice c.name 1).data = ct := by simp [jsSlice, hct]
    have e2 : (jsSlice (normalizeTarget t) 1).data = nt := by simp [jsSlice, hnt]
    have e3 : (jsSlice p.name 1).data = ct ++ '/' :: rem.data := by
      simp [jsSlice, hrem, hct]
    show ('/' : Char) :: (jsReplaceFirst (jsSlice p.name 1)
        (jsSlice c.name 1) (jsSlice (normalizeTarget t) 1)).data
      = (normalizeTarget t ++ "/" ++ rem).data
    rw [jsReplaceFirst]
    show ('/' : Char) :: replaceFirst (jsSlice c.name 1).data
        (jsSlice (normalizeTarget t) 1).data (jsSlice p.name 1).data = _
    rw [e1, e2, e3,
      show ct ++ '/' :: rem.data = ct ++ ('/' :: rem.data) from rfl,
      replaceFirst_append]
    simp [hnt]
  · intro p hp hid hnpre nm hmemE
    rcases List.mem_append.1 hmemE with hm | hm
    · rcases List.mem_append.1 hm with hm | hm
      · obtain ⟨n2, he⟩ := missingAncestors_shape _ ps "" _ hm
        exact Effect.noConfusion he
      · obtain ⟨q, hq, he⟩ := List.mem_map.1 hm
        rw [Effect.renamePage.injEq] at he
        have hqid : q.id = p.id := he.1
        rcases List.mem_cons.1 hq with hqc | hqc
        · rw [hqc] at hqid
          exact hid hqid.symm
        · have hqps : q ∈ ps := by
            unfold findAllChildPages at hqc
            exact List.mem_of_mem_filter hqc
          have hq2 := (mem_findAllChildPages hroot (hwf c hmem) (hwf q hqps)).1 hqc
          have hqp : q = p := hinj q hqps p hp hqid
          rw [hqp] at hq2
          exact hnpre hq2.2.2
    · simp at hm

/-- Witness for C1 at the tree `{/, /proj, /proj2, /proj/sub}` renamed from
`/proj` to `/work`: the node goes to `/work`, the descendant `/proj/sub` to
`/work/sub`, and `/proj2` receives no rename effect. -/
theorem rename_prefix_safe_witness :
    (Effect.renamePage 1 (normalizeTarget "/work")
      ∈ handleRename (getMyPageSingle ⟨1, "/proj"⟩)
          ([⟨0, "/"⟩, ⟨1, "/proj"⟩, ⟨2, "/proj2"⟩, ⟨3, "/proj/sub"⟩].map getMyPageSingle)
          (some "/work"))
    ∧ (Effect.renamePage 3 (normalizeTarget "/work" ++ "/" ++ "sub")
      ∈ handleRename (getMyPageSingle ⟨1, "/proj"⟩)
          ([⟨0, "/"⟩, ⟨1, "/proj"⟩, ⟨2, "/proj2"⟩, ⟨3, "/proj/sub"⟩].map getMyPageSingle)
          (some "/work"))
    ∧ ∀ nm, Effect.renamePage 2 nm
      ∉ handleRename (getMyPageSingle ⟨1, "/proj"⟩)
          ([⟨0, "/"⟩, ⟨1, "/proj"⟩, ⟨2, "/proj2"⟩, ⟨3, "/proj/sub"⟩].map getMyPageSingle)
          (some "/work") :=
  have h := rename_prefix_safe (getMyPageSingle ⟨1, "/proj"⟩)
    ([⟨0, "/"⟩, ⟨1, "/proj"⟩, ⟨2, "/proj2"⟩, ⟨3, "/proj/sub"⟩].map getMyPageSingle)
    "/work" (by decide) (by decide) (by decide) (by decide) (by decide) (by decide)
    (by decide) (by decide)
  ⟨h.1, h.2.1 (getMyPageSingle ⟨3, "/proj/sub"⟩) (by decide) "sub" (by decide),
    h.2.2 (getMyPageSingle ⟨2, "/proj2"⟩) (by decide) (by decide) (by decide)⟩

/-- The nonempty segments of the normalized rename target, as the rename
handler computes them (`split("/")` followed by `filter(Boolean)`). -/
def targetSegments (t : String) : List (List Char) :=
  (splitChars (normalizeTarget t).data).filter (fun l => decide (l ≠ []))

theorem missingAncestors_eq : ∀ (l : List (List Char)) (ps : List MyPage)
    (acc : String),
    missingAncestors ps acc l
      = ((ancestorPaths acc l).filter (fun a => ps.all (fun p => p.name != a))).map
          Effect.createPage
  | [], ps, acc => rfl
  | part :: rest, ps, acc => by
    have ih := missingAncestors_eq rest ps (acc ++ "/" ++ String.mk part)
    rw [missingAncestors, ancestorPaths, List.filter_cons]
    by_cases hf : (ps.find? (fun p => p.name == acc ++ "/" ++ String.mk part)).isSome
      = true
    · have hall : (ps.all (fun p => p.name != acc ++ "/" ++ String.mk part)) = false := by
        rw [List.all_eq_false]
        obtain ⟨p, hp, he⟩ := List.find?_isSome.1 hf
        refine ⟨p, hp, ?_⟩
        simp only [beq_iff_eq] at he
        simp [he]
      rw [if_pos hf, hall]
      simp [ih]
    · have hall : (ps.all (fun p => p.name != acc ++ "/" ++ String.mk part)) = true := by
        rw [List.all_eq_true]
        intro p hp
        simp only [bne_iff_ne, ne_eq]
        intro he
        exact hf (List.find?_isSome.2 ⟨p, hp, by simp [he]⟩)
      rw [if_neg hf, hall]
      simp [ih]

theorem ancestorPaths_eq : ∀ (l : List (List Char)) (acc : String),
    ancestorPaths acc l
      = (List.range l.length).map
          (fun i => acc ++ "/" ++ String.mk (joinChars (l.take (i + 1))))
  | [], acc => by simp [ancestorPaths]
  | part :: rest, acc => by
    have ih := ancestorPaths_eq rest (acc ++ "/" ++ String.mk part)
    rw [ancestorPaths, ih, List.length_cons, List.range_succ_eq_map,
      List.map_cons, List.map_map]
    congr 1
    apply List.map_congr_left
    intro i hi
    simp only [Function.comp_apply]
    have htake : (part :: rest).take (i + 1 + 1) = part :: rest.take (i + 1) := rfl
    rw [show Nat.succ i + 1 = i + 1 + 1 from rfl, htake]
    have hne : rest.take (i + 1) ≠ [] := by
      intro hnil
      rcases List.take_eq_nil_iff.1 hnil with hz | hz
      · omega
      · rw [hz] at hi
        simp at hi
    obtain ⟨x, xs, hxe⟩ := List.exists_cons_of_ne_nil hne
    rw [hxe, joinChars_cons_cons part x xs, ← hxe]
    apply String.ext
    simp

/-- C4: on a successful rename, the handler first emits one create effect for
each ancestor prefix path of the target that no existing node occupies, in
outermost-first order (the i-th candidate is the leading slash plus the first
i+1 target segments joined by slashes, the last segment excluded), and only
then the rename effects, starting with the renamed node itself; the trailing
effect is the navigation to the target. -/
theorem rename_creates_missing_ancestors_first (c : MyPage) (ps : List MyPage)
    (t : String) (hroot : c.name ≠ "/") (h1 : t ≠ "") (h2 : jsTrim t ≠ "")
    (h3 : jsTrim t ≠ c.name) (hfree : ∀ p ∈ ps, p.name ≠ normalizeTarget t) :
    ∃ rens : List Effect,
      handleRename c ps (some t)
        = ((ancestorPaths "" (targetSegments t).dropLast).filter
              (fun a => ps.all (fun p => p.name != a))).map Effect.createPage
          ++ rens ++ [Effect.focusName (normalizeTarget t)]
      ∧ (∀ e ∈ rens, ∃ i nm, e = Effect.renamePage i nm)
      ∧ rens.head? = some (Effect.renamePage c.id (normalizeTarget t))
      ∧ ancestorPaths "" (targetSegments t).dropLast
          = (List.range (targetSegments t).dropLast.length).map
              (fun i => "" ++ "/" ++ String.mk (joinChars
                ((targetSegments t).dropLast.take (i + 1)))) := by
  refine ⟨(c :: findAllChildPages c ps).map (fun page =>
      Effect.renamePage page.id
        (if page.id = c.id then normalizeTarget t
         else "/" ++ jsReplaceFirst (jsSlice page.name 1)
                (jsSlice c.name 1) (jsSlice (normalizeTarget t) 1))), ?_, ?_, ?_, ?_⟩
  · rw [handleRename_success c ps t hroot h1 h2 h3 hfree, missingAncestors_eq]
    rfl
  · intro e he
    obtain ⟨q, hq, hqe⟩ := List.mem_map.1 he
    exact ⟨q.id, _, hqe.symm⟩
  · simp
  · exact ancestorPaths_eq _ ""

/-- Witness for C4: the scenario `rename(/a, "/x/y")` against `{/, /a, /a/c}`
where `/x` does not exist, together with the concrete effect sequence it
produces: create `/x` first, then rename `/a` to `/x/y` and `/a/c` to
`/x/y/c`. -/
theorem rename_creates_missing_ancestors_first_witness :
    (∃ rens : List Effect,
      handleRename (getMyPageSingle ⟨1, "/a"⟩)
          ([⟨0, "/"⟩, ⟨1, "/a"⟩, ⟨2, "/a/c"⟩].map getMyPageSingle) (some "/x/y")
        = ((ancestorPaths "" (targetSegments "/x/y").dropLast).filter
              (fun a => ([⟨0, "/"⟩, ⟨1, "/a"⟩, ⟨2, "/a/c"⟩].map getMyPageSingle).all
                (fun p => p.name != a))).map Effect.createPage
          ++ rens ++ [Effect.focusName (normalizeTarget "/x/y")]
      ∧ (∀ e ∈ rens, ∃ i nm, e = Effect.renamePage i nm)
      ∧ rens.head? = some (Effect.renamePage (getMyPageSingle ⟨1, "/a"⟩).id
          (normalizeTarget "/x/y"))
      ∧ ancestorPaths "" (targetSegments "/x/y").dropLast
          = (List.range (targetSegments "/x/y").dropLast.length).map
              (fun i => "" ++ "/" ++ String.mk (joinChars
                ((targetSegments "/x/y").dropLast.take (i + 1)))))
    ∧ handleRename (getMyPageSingle ⟨1, "/a"⟩)
        ([⟨0, "/"⟩, ⟨1, "/a"⟩, ⟨2, "/a/c"⟩].map getMyPageSingle) (some "/x/y")
      = [Effect.createPage "/x", Effect.renamePage 1 "/x/y",
         Effect.renamePage 2 "/x/y/c", Effect.focusName "/x/y"] :=
  ⟨rename_creates_missing_ancestors_first (getMyPageSingle ⟨1, "/a"⟩)
      ([⟨0, "/"⟩, ⟨1, "/a"⟩, ⟨2, "/a/c"⟩].map getMyPageSingle) "/x/y"
      (by decide) (by decide) (by decide) (by decide) (by decide),
    by decide⟩
